import Mathlib

/-!
# Verification of the `uri` library (src/lib/index.js)

Shallow embedding of a URI/IRI recognizer, parser, normalizer, resolver and
relativizer.  The source builds anchored regular expressions from RFC 3986/3987
character classes and productions and parses by full-match with named capture
groups.  Here each production is translated into an executable recursive
scanner over `List Char`.

Determinization notes (the source regexes are backtracking regexes; the
scanners below are deterministic; the equivalences used):

* `(?:scheme:|)` — ordered alternation.  `scheme = [a-zA-Z][a-zA-Z0-9-+.]*` is
  greedy, and `:` is not a scheme character, so the only candidate split is
  the maximal scheme-character run followed by `:`.  If the remainder of the
  pattern then fails, the engine falls back to the empty alternative over the
  whole input; `parseCore` mirrors that fallback explicitly.
* `(?://authority path|pathWithoutAuthority)` — if the input starts with `//`
  only the authority branch can apply (the second branch has a `(?!//)`
  lookahead); otherwise only the second branch can apply (the first needs a
  literal `//`).
* `(?:userinfo@)?` — userinfo characters exclude `@`, so the greedy userinfo
  run stops at the first character outside the class; the branch applies
  exactly when that character is `@`.  If taking it later fails, skipping it
  could only succeed if something after host/port could consume the `@`,
  but path needs a leading `/` and query a leading `?`, none of which can
  appear before the `@` inside a userinfo run; so committing is faithful.
* `host = ipLiteral|ipV4Address|regName` — `regName` is lazy and the
  characters that may follow host (`:` port, `/` path, `?` query, `#`
  fragment, end) are not reg-name characters, so in any full match the host
  capture is exactly the maximal reg-name run.  `ipV4Address` only matches
  strings of digits and dots, all reg-name characters, and by the same
  follow-set argument any full match through the ipv4 branch captures the
  same maximal run; so the unbracketed host is scanned as one run.  A host
  starting with `[` can only match through `ipLiteral`; its body classes
  exclude `]`, so the body is exactly the span up to the first `]` and only
  language membership of that span matters (no captures inside), computed by
  the `Rems` matcher below.
* `port = :\d*`, paths, query, fragment — each is a run over a class that
  excludes its possible followers, so the same argument applies; path spans
  stop at the first `?` or `#`, query spans at the first `#`.
-/

namespace Uri

abbrev Chars := List Char

/-! ## Character classes (source lines 26-78) -/

/-- `[a-fA-F0-9]` (`hexdig`). -/
def isHexDigitChar (c : Char) : Bool :=
  c.isDigit || ('a' ≤ c && c ≤ 'f') || ('A' ≤ c && c ≤ 'F')

/-- `[a-zA-Z0-9-._~]` (`unreserved`). -/
def isUnreservedChar (c : Char) : Bool :=
  c.isAlpha || c.isDigit || c = '-' || c = '.' || c = '_' || c = '~'

/-- `[!$&'()*+,;=]` (`subDelims`); code 39 is the apostrophe. -/
def isSubDelimChar (c : Char) : Bool :=
  c = '!' || c = '$' || c = '&' || c.toNat = 39 || c = '(' || c = ')' ||
  c = '*' || c = '+' || c = ',' || c = ';' || c = '='

/-- First character of `scheme`: `[a-zA-Z]`. -/
def isSchemeFirstChar (c : Char) : Bool := c.isAlpha

/-- Later characters of `scheme`: `[a-zA-Z0-9-+.]`. -/
def isSchemeChar (c : Char) : Bool :=
  c.isAlpha || c.isDigit || c = '-' || c = '+' || c = '.'

/-- `iunreserved`: `unreserved` plus the RFC 3987 `ucschar` ranges
(source line 60). -/
def isIUnreservedChar (c : Char) : Bool :=
  isUnreservedChar c ||
  (0xA0 ≤ c.toNat && c.toNat ≤ 0xD7FF) ||
  (0xF900 ≤ c.toNat && c.toNat ≤ 0xFDCF) ||
  (0xFDF0 ≤ c.toNat && c.toNat ≤ 0xFFEF) ||
  (0x10000 ≤ c.toNat && c.toNat ≤ 0x1FFFD) ||
  (0x20000 ≤ c.toNat && c.toNat ≤ 0x2FFFD) ||
  (0x30000 ≤ c.toNat && c.toNat ≤ 0x3FFFD) ||
  (0x40000 ≤ c.toNat && c.toNat ≤ 0x4FFFD) ||
  (0x50000 ≤ c.toNat && c.toNat ≤ 0x5FFFD) ||
  (0x60000 ≤ c.toNat && c.toNat ≤ 0x6FFFD) ||
  (0x70000 ≤ c.toNat && c.toNat ≤ 0x7FFFD) ||
  (0x80000 ≤ c.toNat && c.toNat ≤ 0x8FFFD) ||
  (0x90000 ≤ c.toNat && c.toNat ≤ 0x9FFFD) ||
  (0xA0000 ≤ c.toNat && c.toNat ≤ 0xAFFFD) ||
  (0xB0000 ≤ c.toNat && c.toNat ≤ 0xBFFFD) ||
  (0xC0000 ≤ c.toNat && c.toNat ≤ 0xCFFFD) ||
  (0xD0000 ≤ c.toNat && c.toNat ≤ 0xDFFFD) ||
  (0xE1000 ≤ c.toNat && c.toNat ≤ 0xEFFFD)

/-- `iprivate` (source line 61), permitted only in IRI queries. -/
def isIPrivateChar (c : Char) : Bool :=
  (0xE000 ≤ c.toNat && c.toNat ≤ 0xF8FF) ||
  (0xF0000 ≤ c.toNat && c.toNat ≤ 0xFFFFD) ||
  (0x100000 ≤ c.toNat && c.toNat ≤ 0x10FFFD)

/-- The two alphabets: the URI grammar and the IRI grammar differ only in the
unreserved class and in the extra private-use class allowed in queries;
the source spells the two regex families out in parallel (lines 41-57 vs
59-78), which this parameter captures. -/
structure Alphabet where
  isUnres : Char → Bool
  isQueryExtra : Char → Bool

def uriAlphabet : Alphabet := ⟨isUnreservedChar, fun _ => false⟩
def iriAlphabet : Alphabet := ⟨isIUnreservedChar, isIPrivateChar⟩

/-- `userinfo` characters (besides pct-encoded): `unreserved|subDelims|:`. -/
def userinfoOk (A : Alphabet) (c : Char) : Bool :=
  A.isUnres c || isSubDelimChar c || c = ':'

/-- `regName` characters (besides pct-encoded): `unreserved|subDelims`. -/
def regNameOk (A : Alphabet) (c : Char) : Bool :=
  A.isUnres c || isSubDelimChar c

/-- `pchar` single characters (besides pct-encoded):
`unreserved|subDelims|:|@`. -/
def pcharOk (A : Alphabet) (c : Char) : Bool :=
  A.isUnres c || isSubDelimChar c || c = ':' || c = '@'

/-- Path characters: `pchar` or the segment separator `/`. -/
def pathOk (A : Alphabet) (c : Char) : Bool :=
  pcharOk A c || c = '/'

/-- Query characters: `(pchar|/|?)` plus `iprivate` in the IRI grammar
(source lines 52 and 73). -/
def queryOk (A : Alphabet) (c : Char) : Bool :=
  pcharOk A c || c = '/' || c = '?' || A.isQueryExtra c

/-- Fragment characters: `(pchar|/|?)`; note no `iprivate` even for IRIs
(source lines 53 and 74). -/
def fragmentOk (A : Alphabet) (c : Char) : Bool :=
  pcharOk A c || c = '/' || c = '?'

/-! ## Scanning helpers -/

/-- Maximal run of characters satisfying `ok` or forming a valid pct-encoded
triplet `%` hexdig hexdig, returning the run and the rest.  (`%` itself is in
none of the grammar's single-character classes, so a `%` not followed by two
hex digits ends the run.) -/
def takeWhilePct (ok : Char → Bool) : Chars → Chars × Chars
  | '%' :: c1 :: c2 :: rest =>
    if isHexDigitChar c1 && isHexDigitChar c2 then
      ('%' :: c1 :: c2 :: (takeWhilePct ok rest).1, (takeWhilePct ok rest).2)
    else if ok '%' then
      ('%' :: (takeWhilePct ok (c1 :: c2 :: rest)).1,
       (takeWhilePct ok (c1 :: c2 :: rest)).2)
    else ([], '%' :: c1 :: c2 :: rest)
  | c :: rest =>
    if ok c then (c :: (takeWhilePct ok rest).1, (takeWhilePct ok rest).2)
    else ([], c :: rest)
  | [] => ([], [])

/-- Does the whole list consist of `ok` characters and valid pct-encoded
triplets?  (Language of `(ok-char|pctEncoded)*`.) -/
def validSeq (ok : Char → Bool) : Chars → Bool
  | [] => true
  | '%' :: c1 :: c2 :: rest =>
    if isHexDigitChar c1 && isHexDigitChar c2 then validSeq ok rest
    else if ok '%' then validSeq ok (c1 :: c2 :: rest)
    else false
  | c :: rest => ok c && validSeq ok rest

/-! ## IP literal matching (source lines 31-37)

`ipLiteral = \[(?:ipV6Address|ipVFuture)\]` appears inside `host`.  The body
classes exclude `]`, so the body is the span up to the first `]` and only
language membership matters.  Membership is decided by a small
all-remainders matcher: each combinator maps an input to the list of
suffixes reachable by matching a prefix. -/

/-- Match one character from a class. -/
def remsClass (ok : Char → Bool) : Chars → List Chars
  | c :: rest => if ok c then [rest] else []
  | [] => []

/-- Match one literal character. -/
def remsLit (c : Char) : Chars → List Chars :=
  remsClass (· = c)

/-- Sequencing. -/
def remsSeq (f g : Chars → List Chars) : Chars → List Chars :=
  fun s => (f s).flatMap g

/-- Ordered alternation (order is irrelevant for membership). -/
def remsAlt (f g : Chars → List Chars) : Chars → List Chars :=
  fun s => f s ++ g s

/-- Exactly `n` repetitions. -/
def remsRep (f : Chars → List Chars) : Nat → Chars → List Chars
  | 0, s => [s]
  | n + 1, s => (f s).flatMap (remsRep f n)

/-- Between `0` and `n` repetitions. -/
def remsUpTo (f : Chars → List Chars) : Nat → Chars → List Chars
  | 0, s => [s]
  | n + 1, s => s :: (f s).flatMap (remsUpTo f n)

/-- Between `1` and `n` repetitions. -/
def remsRange1 (f : Chars → List Chars) (n : Nat) : Chars → List Chars :=
  remsSeq f (remsUpTo f (n - 1))

/-- One or more characters of a class (`class+`). -/
def remsPlusClass (ok : Char → Bool) : Chars → List Chars
  | c :: rest => if ok c then rest :: remsPlusClass ok rest else []
  | [] => []

/-- `h16 = hexdig{1,4}`. -/
def remsH16 : Chars → List Chars := remsRange1 (remsClass isHexDigitChar) 4

/-- `decOctet = (?:\d|[1-9]\d|1\d\d|2[0-4]\d|25[0-5])`. -/
def remsDecOctet : Chars → List Chars :=
  remsAlt (remsClass Char.isDigit)
    (remsAlt (remsSeq (remsClass fun c => '1' ≤ c && c ≤ '9') (remsClass Char.isDigit))
      (remsAlt (remsSeq (remsLit '1') (remsSeq (remsClass Char.isDigit) (remsClass Char.isDigit)))
        (remsAlt (remsSeq (remsClass fun c => c = '2') (remsSeq (remsClass fun c => '0' ≤ c && c ≤ '4') (remsClass Char.isDigit)))
          (remsSeq (remsLit '2') (remsSeq (remsLit '5') (remsClass fun c => '0' ≤ c && c ≤ '5'))))))

/-- `ipV4Address = decOctet\.decOctet\.decOctet\.decOctet`. -/
def remsIpV4 : Chars → List Chars :=
  remsSeq remsDecOctet (remsSeq (remsLit '.')
    (remsSeq remsDecOctet (remsSeq (remsLit '.')
      (remsSeq remsDecOctet (remsSeq (remsLit '.') remsDecOctet)))))

/-- `ls32 = (?:h16:h16|ipV4Address)`. -/
def remsLs32 : Chars → List Chars :=
  remsAlt (remsSeq remsH16 (remsSeq (remsLit ':') remsH16)) remsIpV4

/-- `h16:` -/
def remsH16Colon : Chars → List Chars := remsSeq remsH16 (remsLit ':')

/-- `::` -/
def remsColonColon : Chars → List Chars := remsSeq (remsLit ':') (remsLit ':')

/-- `(?:(?:h16:){0,k}h16)?` -/
def remsOptH16Seq (k : Nat) : Chars → List Chars :=
  remsAlt (fun s => [s]) (remsSeq (remsUpTo remsH16Colon k) remsH16)

/-- `ipV6Address` (source line 35): the nine `::`-placement alternatives. -/
def remsIpV6 : Chars → List Chars :=
  remsAlt (remsSeq (remsRep remsH16Colon 6) remsLs32)
    (remsAlt (remsSeq remsColonColon (remsSeq (remsRep remsH16Colon 5) remsLs32))
      (remsAlt (remsSeq (remsAlt (fun s => [s]) remsH16) (remsSeq remsColonColon (remsSeq (remsRep remsH16Colon 4) remsLs32)))
        (remsAlt (remsSeq (remsOptH16Seq 1) (remsSeq remsColonColon (remsSeq (remsRep remsH16Colon 3) remsLs32)))
          (remsAlt (remsSeq (remsOptH16Seq 2) (remsSeq remsColonColon (remsSeq (remsRep remsH16Colon 2) remsLs32)))
            (remsAlt (remsSeq (remsOptH16Seq 3) (remsSeq remsColonColon (remsSeq (remsRep remsH16Colon 1) remsLs32)))
              (remsAlt (remsSeq (remsOptH16Seq 4) (remsSeq remsColonColon remsLs32))
                (remsAlt (remsSeq (remsOptH16Seq 5) (remsSeq remsColonColon remsH16))
                  (remsSeq (remsOptH16Seq 6) remsColonColon))))))))

/-- `ipVFuture = v hexdig+ \. (?:unreserved|subDelims|:)+` (ASCII classes in
both grammars, source line 36). -/
def remsIpVFuture : Chars → List Chars :=
  remsSeq (remsLit 'v') (remsSeq (remsPlusClass isHexDigitChar)
    (remsSeq (remsLit '.')
      (remsPlusClass fun c => isUnreservedChar c || isSubDelimChar c || c = ':')))

/-- Full-string membership in `ipV6Address|ipVFuture`. -/
def isIpLiteralBody (s : Chars) : Bool :=
  ((remsAlt remsIpV6 remsIpVFuture) s).contains []

/-! ## Components and the parser

The parsed form mirrors the capture-group record returned by `createParser`
(source lines 216-228): every named group of the pattern, with the `path2`
group already merged into `path` when the authority branch was not taken. -/

structure Components where
  scheme : Option String
  authority : Option String
  userinfo : Option String
  host : Option String
  port : Option String
  path : String
  query : Option String
  fragment : Option String
deriving DecidableEq, Repr

/-- Intermediate result of the hier-part: authority group contents and path. -/
structure HierParts where
  authority : Option Chars
  userinfo : Option Chars
  host : Option Chars
  port : Option Chars
  path : Chars
  rest : Chars
deriving DecidableEq, Repr

/-- `(?:userinfo@)?`: commit iff the maximal userinfo run is followed by `@`
(userinfo characters exclude `@`, and nothing after host can consume an
`@` that precedes the first `/`, `?` or `#`). -/
def parseUserinfo (A : Alphabet) (t : Chars) : Option Chars × Chars :=
  match takeWhilePct (userinfoOk A) t with
  | (uiRun, afterUi) =>
    match afterUi with
    | '@' :: rest => (some uiRun, rest)
    | _ => (none, t)

/-- `host`: an ipLiteral when bracketed, else the maximal reg-name run. -/
def parseHost (A : Alphabet) (t1 : Chars) : Option (Chars × Chars) :=
  match t1 with
  | '[' :: rest =>
    match rest.dropWhile (· ≠ ']') with
    | ']' :: t2 =>
      if isIpLiteralBody (rest.takeWhile (· ≠ ']')) then
        some ('[' :: rest.takeWhile (· ≠ ']') ++ [']'], t2)
      else none
    | _ => none
  | _ => some (takeWhilePct (regNameOk A) t1)

/-- `(?::(?<port>\d*))?`. -/
def parsePort : Chars → Option Chars × Chars
  | ':' :: rest => (some (rest.takeWhile Char.isDigit), rest.dropWhile Char.isDigit)
  | t2 => (none, t2)

/-- `path-abempty = (?:/segment)*`: the span up to the first `?` or `#` must
be empty or start with `/` and consist of path characters. -/
def parsePathAbempty (A : Alphabet) (t3 : Chars) : Option (Chars × Chars) :=
  match t3.takeWhile (fun c => !(c = '?' || c = '#')) with
  | [] => some ([], t3.dropWhile (fun c => !(c = '?' || c = '#')))
  | '/' :: ps =>
    if validSeq (pathOk A) ('/' :: ps) then
      some ('/' :: ps, t3.dropWhile (fun c => !(c = '?' || c = '#')))
    else none
  | _ => none

/-- The authority capture:
`(?<authority>(?:userinfo@)?host(?:port)?)` is the concatenation of its
parts. -/
def authorityChars (userinfo : Option Chars) (host : Chars)
    (port : Option Chars) : Chars :=
  (match userinfo with | some u => u ++ ['@'] | none => []) ++ host ++
    (match port with | some p => ':' :: p | none => [])

/-- `//`-branch: `(?<authority>(?:userinfo@)?host(?:port)?)path` with
`path = path-abempty`, applied after the literal `//`. -/
def parseAuthority (A : Alphabet) (t : Chars) : Option HierParts :=
  match parseUserinfo A t with
  | (userinfo, t1) =>
    match parseHost A t1 with
    | none => none
    | some (host, t2) =>
      match parsePort t2 with
      | (port, t3) =>
        match parsePathAbempty A t3 with
        | none => none
        | some (pspan, t4) =>
          some ⟨some (authorityChars userinfo host port), userinfo,
                some host, port, pspan, t4⟩

/-- The hier-part alternation
`(?://authority path|(?<path2>(?!//)segment path-abempty))`.  In the second
branch the path span runs to the first `?` or `#` and may be any string of
path characters not starting with `//` (excluded by the match order). -/
def parseHier (A : Alphabet) (s : Chars) : Option HierParts :=
  match s with
  | '/' :: '/' :: rest => parseAuthority A rest
  | _ =>
    if validSeq (pathOk A) (s.takeWhile fun c => !(c = '?' || c = '#')) then
      some ⟨none, none, none, none,
            s.takeWhile fun c => !(c = '?' || c = '#'),
            s.dropWhile fun c => !(c = '?' || c = '#')⟩
    else none

/-- Query and fragment tails.  With `allowFragment = false` (the
`absolute-URI`/`absolute-IRI` productions) there is no fragment part at all,
so any `#` makes the match fail. -/
def parseQF (A : Alphabet) (allowFragment : Bool) (rest : Chars) :
    Option (Option Chars × Option Chars) :=
  match rest with
  | [] => some (none, none)
  | '?' :: qrest =>
    if allowFragment then
      if validSeq (queryOk A) (qrest.takeWhile (· ≠ '#')) then
        match qrest.dropWhile (· ≠ '#') with
        | [] => some (some (qrest.takeWhile (· ≠ '#')), none)
        | '#' :: fr =>
          if validSeq (fragmentOk A) fr then
            some (some (qrest.takeWhile (· ≠ '#')), some fr)
          else none
        | _ => none
      else none
    else
      if validSeq (queryOk A) qrest then some (some qrest, none) else none
  | '#' :: fr =>
    if allowFragment && validSeq (fragmentOk A) fr then some (none, some fr) else none
  | _ => none

/-- Scheme split: the maximal `[a-zA-Z][a-zA-Z0-9-+.]*` run followed by `:`. -/
def schemeSplit (s : Chars) : Option (Chars × Chars) :=
  match s with
  | c :: _ =>
    if isSchemeFirstChar c then
      let run := s.takeWhile isSchemeChar
      match s.dropWhile isSchemeChar with
      | ':' :: rest => some (run, rest)
      | _ => none
    else none
  | [] => none

/-- Assemble the capture-group record, merging `path2` into `path` as
`createParser` does (source lines 222-225). -/
def mkComponents (scheme : Option Chars) (h : HierParts)
    (qf : Option Chars × Option Chars) : Components :=
  ⟨scheme.map List.asString, h.authority.map List.asString,
   h.userinfo.map List.asString, h.host.map List.asString,
   h.port.map List.asString, h.path.asString,
   qf.1.map List.asString, qf.2.map List.asString⟩

/-- Hier-part followed by query/fragment and the `$` anchor. -/
def parseHierQF (A : Alphabet) (allowFragment : Bool) (scheme : Option Chars)
    (t : Chars) : Option Components :=
  match parseHier A t with
  | none => none
  | some h =>
    match parseQF A allowFragment h.rest with
    | none => none
    | some qf => some (mkComponents scheme h qf)

/-- Core of all six parse functions, parameterized the way the six source
patterns differ: the alphabet, whether `scheme:` is mandatory (`uri`,
`absoluteUri`) or optional (`uriReference`), and whether a fragment part
exists (`absoluteUri` has none). -/
def parseCore (A : Alphabet) (requireScheme allowFragment : Bool) (s : Chars) :
    Option Components :=
  match schemeSplit s with
  | some (sch, rest) =>
    match parseHierQF A allowFragment (some sch) rest with
    | some c => some c
    | none => if requireScheme then none else parseHierQF A allowFragment none s
  | none => if requireScheme then none else parseHierQF A allowFragment none s

/-- `createParser` (source lines 216-228): full match or a thrown
`Invalid <type>: <value>` error. -/
def runParser (A : Alphabet) (requireScheme allowFragment : Bool)
    (type : String) (value : String) : Except String Components :=
  match parseCore A requireScheme allowFragment value.data with
  | some c => Except.ok c
  | none => Except.error ("Invalid " ++ type ++ ": " ++ value)

def parseUri (s : String) : Except String Components :=
  runParser uriAlphabet true true "URI" s
def parseUriReference (s : String) : Except String Components :=
  runParser uriAlphabet false true "URI-reference" s
def parseAbsoluteUri (s : String) : Except String Components :=
  runParser uriAlphabet true false "absolute-URI" s

def parseIri (s : String) : Except String Components :=
  runParser iriAlphabet true true "IRI" s
def parseIriReference (s : String) : Except String Components :=
  runParser iriAlphabet false true "IRI-reference" s
def parseAbsoluteIri (s : String) : Except String Components :=
  runParser iriAlphabet true false "absolute-IRI" s

/-- The `isX` functions test the very same anchored patterns the parsers use
(source lines 199-211), so they are the parsers' success tests. -/
def isUri (s : String) : Bool := (parseCore uriAlphabet true true s.data).isSome
def isUriReference (s : String) : Bool := (parseCore uriAlphabet false true s.data).isSome
def isAbsoluteUri (s : String) : Bool := (parseCore uriAlphabet true false s.data).isSome
def isIri (s : String) : Bool := (parseCore iriAlphabet true true s.data).isSome
def isIriReference (s : String) : Bool := (parseCore iriAlphabet false true s.data).isSome
def isAbsoluteIri (s : String) : Bool := (parseCore iriAlphabet true false s.data).isSome

/-! ## Dot-segment removal (source lines 115-163) -/

/-- `isNoOpSegment = /^\.?\.\/|^\.\.?$/`: starts with `./` or `../`, or is
exactly `.` or `..`. -/
def isNoOpSegment : Chars → Bool
  | '.' :: '/' :: _ => true
  | '.' :: '.' :: '/' :: _ => true
  | ['.'] => true
  | ['.', '.'] => true
  | _ => false

/-- `isSlashDotSegment = /^\/\.(?:\/|$)/`: starts with `/./` or is `/.`. -/
def isSlashDotSegment : Chars → Bool
  | '/' :: '.' :: '/' :: _ => true
  | ['/', '.'] => true
  | _ => false

/-- `isUpSegment = /^\/\.\.(?:\/|$)/`: starts with `/../` or is `/..`. -/
def isUpSegment : Chars → Bool
  | '/' :: '.' :: '.' :: '/' :: _ => true
  | ['/', '.', '.'] => true
  | _ => false

/-- `removeSegment`: drop through the first `/` found at index ≥ 1; empty if
none, else `/` plus everything after that slash (source lines 141-145). -/
def removeSegment (p : Chars) : Chars :=
  match p with
  | [] => []
  | _ :: rest =>
    match rest.findIdx? (· = '/') with
    | none => []
    | some i => '/' :: rest.drop (i + 1)

/-- `replaceSegmentWithSlash` (source lines 147-151): like `removeSegment`
but yielding `/` when no further slash exists. -/
def replaceSegmentWithSlash (p : Chars) : Chars :=
  match p with
  | [] => ['/']
  | _ :: rest =>
    match rest.findIdx? (· = '/') with
    | none => ['/']
    | some i => '/' :: rest.drop (i + 1)

/-- Index of the last `/`, if any (`lastIndexOf("/")`). -/
def lastSlashIdx? : Chars → Option Nat
  | [] => none
  | c :: rest =>
    match lastSlashIdx? rest with
    | some i => some (i + 1)
    | none => if c = '/' then some 0 else none

/-- `removeLastSegment` (source lines 153-157): truncate before the last `/`;
NOTE the source returns the input unchanged when it has no slash. -/
def removeLastSegment (p : Chars) : Chars :=
  match lastSlashIdx? p with
  | none => p
  | some i => p.take i

/-- `getSegment` (source lines 159-163): the first segment, up to but not
including the first `/` at index ≥ 1. -/
def getSegment (p : Chars) : Chars :=
  match p with
  | [] => []
  | _ :: rest =>
    match rest.findIdx? (· = '/') with
    | none => p
    | some i => p.take (i + 1)

/-- The `removeDotSegments` while-loop (source lines 119-139).  The loop's
variant is the length of `path`: every branch strictly shortens it (proved in
`removeSegment_shortens` / `replaceSegmentWithSlash_shortens` below), so fuel
equal to the initial length makes the fuel guard unreachable and the function
agrees with the source loop. -/
def removeDotSegmentsAux : Nat → Chars → Chars → Chars
  | 0, _, output => output
  | fuel + 1, path, output =>
    match path with
    | [] => output
    | _ =>
      if isNoOpSegment path then
        removeDotSegmentsAux fuel (removeSegment path) output
      else if isSlashDotSegment path then
        removeDotSegmentsAux fuel (replaceSegmentWithSlash path) output
      else if isUpSegment path then
        removeDotSegmentsAux fuel (replaceSegmentWithSlash path) (removeLastSegment output)
      else
        removeDotSegmentsAux fuel (removeSegment path) (output ++ getSegment path)

def removeDotSegmentsChars (p : Chars) : Chars :=
  removeDotSegmentsAux p.length p []

def removeDotSegments (p : String) : String :=
  (removeDotSegmentsChars p.data).asString

/-! ## Percent-encoding normalization (source lines 176-196) -/

/-- ASCII lowercase, as `toLowerCase` acts on the ASCII range.  Every string
it is applied to below (scheme and URI authority captures) is ASCII, where
the JS function agrees. -/
def lowerChar (c : Char) : Char :=
  if 'A' ≤ c && c ≤ 'Z' then Char.ofNat (c.toNat + 32) else c

/-- ASCII uppercase (`toUpperCase` on pct-triplet text: `%` and hex digits). -/
def upperChar (c : Char) : Char :=
  if 'a' ≤ c && c ≤ 'z' then Char.ofNat (c.toNat - 32) else c

/-- Numeric value of a hex digit. -/
def hexVal (c : Char) : Nat :=
  if c.isDigit then c.toNat - 48
  else if 'a' ≤ c && c ≤ 'f' then c.toNat - 87
  else c.toNat - 55

/-- The decoded character of a pct-triplet: `String.fromCharCode(parseInt(hex, 16))`. -/
def pctChar (c1 c2 : Char) : Char :=
  Char.ofNat (hexVal c1 * 16 + hexVal c2)

/-- `replaceAll(percentEncoded, percentEncodedToChar(isAllowed))`
(source lines 176-184, 190, 196): scan left to right; each `%`-hexdig-hexdig
match is replaced by the decoded character when `isAllowed` accepts it, else
by the triplet with its hex digits uppercased; other characters pass
through. -/
def replacePct (isAllowed : Char → Bool) : Chars → Chars
  | '%' :: c1 :: c2 :: rest =>
    if isHexDigitChar c1 && isHexDigitChar c2 then
      (if isAllowed (pctChar c1 c2) then [pctChar c1 c2]
       else ['%', upperChar c1, upperChar c2]) ++ replacePct isAllowed rest
    else '%' :: replacePct isAllowed (c1 :: c2 :: rest)
  | c :: rest => c :: replacePct isAllowed rest
  | [] => []

/-- `isAllowedUnescapedInPath` / `...InIPath`: `unreserved|subDelims|[:@]`
(source lines 186-187). -/
def isAllowedUnescapedInPath (A : Alphabet) (c : Char) : Bool :=
  A.isUnres c || isSubDelimChar c || c = ':' || c = '@'

/-- `isAllowedUnescapedInQuery` / `...InIQuery`: `unreserved|subDelims|[:@/?]`
(source lines 192-193); no `iprivate` even in the IRI variant. -/
def isAllowedUnescapedInQuery (A : Alphabet) (c : Char) : Bool :=
  A.isUnres c || isSubDelimChar c || c = ':' || c = '@' || c = '/' || c = '?'

/-- `normalizePath` (source line 190): dot-segment removal, then
percent-encoding normalization with the path set. -/
def normalizePathChars (A : Alphabet) (p : Chars) : Chars :=
  replacePct (isAllowedUnescapedInPath A) (removeDotSegmentsChars p)

/-- `normalizeQuery` (source line 196): percent-encoding normalization with
the query set. -/
def normalizeQueryChars (A : Alphabet) (q : Chars) : Chars :=
  replacePct (isAllowedUnescapedInQuery A) q

/-! ## Strategies, composition, resolution (source lines 165-174, 244-290) -/

/-- The `Strategy` record (source lines 14-23, 244-262). -/
structure Strategy where
  parseAbsolute : String → Except String Components
  parseReference : String → Except String Components
  parse : String → Except String Components
  normalizePath : Chars → Chars
  normalizeQuery : Chars → Chars
  normalizeFragment : Chars → Chars

def uriStrategy : Strategy :=
  ⟨parseAbsoluteUri, parseUriReference, parseUri,
   normalizePathChars uriAlphabet, normalizeQueryChars uriAlphabet,
   normalizeQueryChars uriAlphabet⟩

def iriStrategy : Strategy :=
  ⟨parseAbsoluteIri, parseIriReference, parseIri,
   normalizePathChars iriAlphabet, normalizeQueryChars iriAlphabet,
   normalizeQueryChars iriAlphabet⟩

/-- `composeIdentifier` (source lines 165-174).  Every caller guarantees a
scheme is present (the source would throw otherwise), so the absent case is
defaulted to the empty string. -/
def composeIdentifier (S : Strategy) (c : Components) : String :=
  ((c.scheme.getD "").data.map lowerChar ++ [':'] ++
   (match c.authority with
    | none => []
    | some a => '/' :: '/' :: a.data.map lowerChar) ++
   S.normalizePath c.path.data ++
   (match c.query with
    | none => []
    | some q => '?' :: S.normalizeQuery q.data) ++
   (match c.fragment with
    | none => []
    | some f => '#' :: S.normalizeFragment f.data)).asString

/-- `mergePaths` (source lines 105-113).  `base.authority &&` is a JS
truthiness test: an absent or empty authority both fail it. -/
def mergePaths (path : String) (base : Components) : String :=
  if base.authority.getD "" ≠ "" && base.path = "" then
    "/" ++ path
  else
    match lastSlashIdx? base.path.data with
    | none => path
    | some i => (base.path.data.take (i + 1)).asString ++ path

/-- `resolveReference` (source lines 81-103).  The base is parsed only in the
branch where the reference carries no scheme. -/
def resolveReference (S : Strategy) (reference base : String) :
    Except String String := do
  let c ← S.parseReference reference
  match c.scheme with
  | some _ => pure (composeIdentifier S c)
  | none => do
    let b ← S.parseAbsolute base
    let c1 : Components := { c with scheme := b.scheme }
    match c1.authority with
    | some _ => pure (composeIdentifier S c1)
    | none =>
      let c2 : Components := { c1 with authority := b.authority }
      -- `path === ""` is "no characters"; `path.startsWith("/")` is "first
      -- character is `/`"
      match c2.path.data with
      | [] =>
        let c3 : Components :=
          { c2 with path := b.path,
                    query := match c2.query with
                             | none => b.query
                             | some q => some q }
        pure (composeIdentifier S c3)
      | '/' :: _ => pure (composeIdentifier S c2)
      | _ => pure (composeIdentifier S { c2 with path := mergePaths c2.path b })

def resolveUri (reference base : String) : Except String String :=
  resolveReference uriStrategy reference base
def resolveIri (reference base : String) : Except String String :=
  resolveReference iriStrategy reference base

/-- `normalize` (source lines 276-280): parse under the general production,
recompose. -/
def normalize (S : Strategy) (identifier : String) : Except String String := do
  let c ← S.parse identifier
  pure (composeIdentifier S c)

def normalizeUri (s : String) : Except String String := normalize uriStrategy s
def normalizeIri (s : String) : Except String String := normalize iriStrategy s

/-! ## Relativization (source lines 292-344) -/

/-- `path.split("/")` for the single-character separator `/`. -/
def splitSlash : Chars → List Chars
  | [] => [[]]
  | '/' :: rest => [] :: splitSlash rest
  | c :: rest =>
    match splitSlash rest with
    | s :: ss => (c :: s) :: ss
    | [] => [[c]]

/-- `segments.join("/")`. -/
def joinSlash : List Chars → Chars
  | [] => []
  | [s] => s
  | s :: ss => s ++ '/' :: joinSlash ss

/-- The segment-comparison while loop of `toRelative` (source lines 313-316):
advance while the segments at `position` agree and `position` is not the last
index of either list.  `position` grows by one per iteration and the guard
bounds it by the list lengths, so fuel `f.length` suffices. -/
def relWalk (f t : List Chars) : Nat → Nat → Nat
  | 0, p => p
  | fuel + 1, p =>
    if f.get? p == t.get? p && decide (p < f.length - 1) && decide (p < t.length - 1) then
      relWalk f t fuel (p + 1)
    else p

/-- `toRelative` (source lines 292-339). -/
def toRelative (S : Strategy) (uri relativeTo : String) :
    Except String String := do
  let fromUri ← S.parseAbsolute uri
  let toUri ← S.parse relativeTo
  if toUri.scheme ≠ fromUri.scheme then
    pure relativeTo
  else if toUri.authority ≠ fromUri.authority then
    pure relativeTo
  else
    let result :=
      if fromUri.path = toUri.path then []
      else
        let fromSegments := splitSlash fromUri.path.data
        let toSegments := splitSlash toUri.path.data
        let position := relWalk fromSegments toSegments fromSegments.length 0
        let segments :=
          List.replicate (fromSegments.length - (position + 1)) ['.', '.'] ++
          toSegments.drop position
        joinSlash segments
    let result :=
      match toUri.query with
      | none => result
      | some q => result ++ '?' :: q.data
    let result :=
      match toUri.fragment with
      | none => result
      | some f => result ++ '#' :: f.data
    pure result.asString

def toRelativeUri (uri relativeTo : String) : Except String String :=
  toRelative uriStrategy uri relativeTo
def toRelativeIri (uri relativeTo : String) : Except String String :=
  toRelative iriStrategy uri relativeTo

/-- Consuming matchers consume only `#`-free prefixes: used to show that
captured host literals contain no `#`. -/
def GoodRems (f : Chars → List Chars) : Prop :=
  ∀ s t, t ∈ f s → ∃ u, '#' ∉ u ∧ s = u ++ t

/-- All components a successful parse can capture, except the fragment, are
free of `#` (the fragment claim needs this of everything before the `#`). -/
def NoHashC (c : Components) : Prop :=
  (∀ s, c.scheme = some s → '#' ∉ s.data) ∧
  (∀ a, c.authority = some a → '#' ∉ a.data) ∧
  '#' ∉ c.path.data ∧
  (∀ q, c.query = some q → '#' ∉ q.data)

/-!
## Theorems

First the concrete evaluations that settle the example-based claims, then
the general lemmas and theorems.
-/

/-! ### Generic facts about characters and scanners -/

theorem toNat_ofNat_valid (n : Nat) (h : n.isValidChar) :
    (Char.ofNat n).toNat = n := by
  unfold Char.ofNat
  rw [dif_pos h]
  simp [Char.ofNatAux, Char.toNat, UInt32.toNat]

theorem lowerChar_hash {c : Char} (h : lowerChar c = '#') : c = '#' := by
  unfold lowerChar at h
  split at h
  case isTrue hc =>
    exfalso
    simp only [Bool.and_eq_true, decide_eq_true_eq] at hc
    have h1 : 65 ≤ c.toNat := hc.1
    have h2 : c.toNat ≤ 90 := hc.2
    have hv : (c.toNat + 32).isValidChar := Or.inl (by omega)
    have := congrArg Char.toNat h
    rw [toNat_ofNat_valid _ hv] at this
    have h35 : ('#' : Char).toNat = 35 := by decide
    omega
  case isFalse => exact h

theorem upperChar_hash {c : Char} (h : upperChar c = '#') : c = '#' := by
  unfold upperChar at h
  split at h
  case isTrue hc =>
    exfalso
    simp only [Bool.and_eq_true, decide_eq_true_eq] at hc
    have h1 : 97 ≤ c.toNat := hc.1
    have h2 : c.toNat ≤ 122 := hc.2
    have hv : (c.toNat - 32).isValidChar := Or.inl (by omega)
    have := congrArg Char.toNat h
    rw [toNat_ofNat_valid _ hv] at this
    have h35 : ('#' : Char).toNat = 35 := by decide
    omega
  case isFalse => exact h

theorem map_lowerChar_no_hash {l : Chars} (h : '#' ∉ l) :
    '#' ∉ l.map lowerChar := by
  intro hm
  obtain ⟨c, hc, he⟩ := List.mem_map.mp hm
  exact h (lowerChar_hash he ▸ hc)

theorem validSeq_mem (ok : Char → Bool) (l : Chars) (h : validSeq ok l = true) :
    ∀ c ∈ l, ok c = true ∨ c = '%' ∨ isHexDigitChar c = true := by
  induction l using validSeq.induct ok with
  | case1 => intro c hc; simp at hc
  | case2 c1 c2 rest hhex ih =>
    simp only [validSeq, hhex, if_true] at h
    intro c hc
    rcases List.mem_cons.mp hc with rfl | hc
    · exact Or.inr (Or.inl rfl)
    rcases List.mem_cons.mp hc with rfl | hc
    · exact Or.inr (Or.inr (Bool.and_eq_true _ _ |>.mp hhex).1)
    rcases List.mem_cons.mp hc with rfl | hc
    · exact Or.inr (Or.inr (Bool.and_eq_true _ _ |>.mp hhex).2)
    exact ih h c hc
  | case3 c1 c2 rest hhex hokp ih =>
    simp only [validSeq, hhex, hokp, if_false, if_true, Bool.false_eq_true] at h
    intro c hc
    rcases List.mem_cons.mp hc with rfl | hc
    · exact Or.inr (Or.inl rfl)
    exact ih h c hc
  | case4 c1 c2 rest hhex hokp =>
    simp only [validSeq, hhex, hokp, Bool.false_eq_true, if_false] at h
  | case5 c rest hne ih =>
    simp only [validSeq] at h
    intro d hd
    rcases List.mem_cons.mp hd with rfl | hd
    · exact Or.inl (Bool.and_eq_true _ _ |>.mp h).1
    exact ih (Bool.and_eq_true _ _ |>.mp h).2 d hd

theorem takeWhilePct_append (ok : Char → Bool) (s : Chars) :
    (takeWhilePct ok s).1 ++ (takeWhilePct ok s).2 = s := by
  induction s using takeWhilePct.induct ok with
  | case1 c1 c2 rest hhex ih =>
    simp only [takeWhilePct, hhex, if_true]
    simpa using ih
  | case2 c1 c2 rest hhex hokp ih =>
    simp only [takeWhilePct, hhex, hokp, if_false, if_true, Bool.false_eq_true]
    simpa using ih
  | case3 c1 c2 rest hhex hokp => simp [takeWhilePct, hhex, hokp]
  | case4 c rest hne hok ih =>
    simp only [takeWhilePct, hok, if_true]
    simpa using ih
  | case5 c rest hne hok => simp [takeWhilePct, hok]
  | case6 => simp [takeWhilePct]

theorem takeWhilePct_run_mem (ok : Char → Bool) (s : Chars) :
    ∀ c ∈ (takeWhilePct ok s).1, ok c = true ∨ c = '%' ∨ isHexDigitChar c = true := by
  induction s using takeWhilePct.induct ok with
  | case1 c1 c2 rest hhex ih =>
    simp only [takeWhilePct, hhex, if_true]
    intro c hc
    rcases List.mem_cons.mp hc with rfl | hc
    · exact Or.inr (Or.inl rfl)
    rcases List.mem_cons.mp hc with rfl | hc
    · exact Or.inr (Or.inr (Bool.and_eq_true _ _ |>.mp hhex).1)
    rcases List.mem_cons.mp hc with rfl | hc
    · exact Or.inr (Or.inr (Bool.and_eq_true _ _ |>.mp hhex).2)
    exact ih c hc
  | case2 c1 c2 rest hhex hokp ih =>
    simp only [takeWhilePct, hhex, hokp, if_false, if_true, Bool.false_eq_true]
    intro c hc
    rcases List.mem_cons.mp hc with rfl | hc
    · exact Or.inr (Or.inl rfl)
    exact ih c hc
  | case3 c1 c2 rest hhex hokp => simp [takeWhilePct, hhex, hokp]
  | case4 c rest hne hok ih =>
    simp only [takeWhilePct, hok, if_true]
    intro d hd
    rcases List.mem_cons.mp hd with rfl | hd
    · exact Or.inl hok
    exact ih d hd
  | case5 c rest hne hok => simp [takeWhilePct, hok]
  | case6 => simp [takeWhilePct]

/-! ### The ip-literal matcher consumes no `#` -/

theorem goodRems_class {ok : Char → Bool} (h : ok '#' = false) :
    GoodRems (remsClass ok) := by
  intro s t ht
  unfold remsClass at ht
  split at ht
  case h_1 c rest =>
    split at ht
    case isTrue hok =>
      rcases List.mem_singleton.mp ht with rfl
      refine ⟨[c], ?_, rfl⟩
      intro hc
      rcases List.mem_singleton.mp hc with rfl
      simp_all
    case isFalse => simp at ht
  case h_2 => simp at ht

theorem goodRems_lit {c : Char} (h : ¬ c = '#') : GoodRems (remsLit c) := by
  unfold remsLit
  exact goodRems_class (by simp [Ne.symm h])

theorem goodRems_pure : GoodRems (fun s => [s]) := by
  intro s t ht
  rcases List.mem_singleton.mp ht with rfl
  exact ⟨[], by simp, rfl⟩

theorem goodRems_seq {f g : Chars → List Chars} (hf : GoodRems f)
    (hg : GoodRems g) : GoodRems (remsSeq f g) := by
  intro s t ht
  unfold remsSeq at ht
  obtain ⟨m, hm, hmg⟩ := List.mem_flatMap.mp ht
  obtain ⟨u1, hu1, rfl⟩ := hf s m hm
  obtain ⟨u2, hu2, rfl⟩ := hg m t hmg
  exact ⟨u1 ++ u2, by simp_all, by simp⟩

theorem goodRems_alt {f g : Chars → List Chars} (hf : GoodRems f)
    (hg : GoodRems g) : GoodRems (remsAlt f g) := by
  intro s t ht
  rcases List.mem_append.mp ht with h1 | h1
  · exact hf s t h1
  · exact hg s t h1

theorem goodRems_rep {f : Chars → List Chars} (hf : GoodRems f) :
    ∀ n, GoodRems (remsRep f n) := by
  intro n
  induction n with
  | zero =>
    intro s t ht
    rcases List.mem_singleton.mp ht with rfl
    exact ⟨[], by simp, rfl⟩
  | succ n ih =>
    intro s t ht
    unfold remsRep at ht
    obtain ⟨m, hm, hmg⟩ := List.mem_flatMap.mp ht
    obtain ⟨u1, hu1, rfl⟩ := hf s m hm
    obtain ⟨u2, hu2, rfl⟩ := ih m t hmg
    exact ⟨u1 ++ u2, by simp_all, by simp⟩

theorem goodRems_upTo {f : Chars → List Chars} (hf : GoodRems f) :
    ∀ n, GoodRems (remsUpTo f n) := by
  intro n
  induction n with
  | zero =>
    intro s t ht
    rcases List.mem_singleton.mp ht with rfl
    exact ⟨[], by simp, rfl⟩
  | succ n ih =>
    intro s t ht
    unfold remsUpTo at ht
    rcases List.mem_cons.mp ht with rfl | ht
    · exact ⟨[], by simp, rfl⟩
    obtain ⟨m, hm, hmg⟩ := List.mem_flatMap.mp ht
    obtain ⟨u1, hu1, rfl⟩ := hf s m hm
    obtain ⟨u2, hu2, rfl⟩ := ih m t hmg
    exact ⟨u1 ++ u2, by simp_all, by simp⟩

theorem goodRems_range1 {f : Chars → List Chars} (hf : GoodRems f) (n : Nat) :
    GoodRems (remsRange1 f n) := by
  unfold remsRange1
  exact goodRems_seq hf (goodRems_upTo hf _)

theorem goodRems_plusClass {ok : Char → Bool} (h : ok '#' = false) :
    GoodRems (remsPlusClass ok) := by
  intro s
  induction s with
  | nil =>
    intro t ht
    simp [remsPlusClass] at ht
  | cons c rest ih =>
    intro t ht
    unfold remsPlusClass at ht
    split at ht
    case isTrue hok =>
      rcases List.mem_cons.mp ht with rfl | ht
      · refine ⟨[c], ?_, rfl⟩
        intro hc
        rcases List.mem_singleton.mp hc with rfl
        simp_all
      · obtain ⟨u, hu, rfl⟩ := ih t ht
        refine ⟨c :: u, ?_, rfl⟩
        intro hc
        rcases List.mem_cons.mp hc with rfl | hc
        · simp_all
        · exact hu hc
    case isFalse => simp at ht

theorem goodRems_h16 : GoodRems remsH16 := by
  unfold remsH16
  exact goodRems_range1 (goodRems_class (by decide)) _

theorem goodRems_decOctet : GoodRems remsDecOctet := by
  unfold remsDecOctet
  repeat'
    first
    | apply goodRems_alt
    | apply goodRems_seq
    | exact goodRems_class (by decide)

theorem goodRems_ipv4 : GoodRems remsIpV4 := by
  unfold remsIpV4
  repeat'
    first
    | exact goodRems_decOctet
    | apply goodRems_seq
    | exact goodRems_lit (by decide)

theorem goodRems_ls32 : GoodRems remsLs32 := by
  unfold remsLs32
  apply goodRems_alt
  · exact goodRems_seq goodRems_h16 (goodRems_seq (goodRems_lit (by decide)) goodRems_h16)
  · exact goodRems_ipv4

theorem goodRems_h16Colon : GoodRems remsH16Colon := by
  unfold remsH16Colon
  exact goodRems_seq goodRems_h16 (goodRems_lit (by decide))

theorem goodRems_colonColon : GoodRems remsColonColon := by
  unfold remsColonColon
  exact goodRems_seq (goodRems_lit (by decide)) (goodRems_lit (by decide))

theorem goodRems_optH16Seq (k : Nat) : GoodRems (remsOptH16Seq k) := by
  unfold remsOptH16Seq
  exact goodRems_alt goodRems_pure
    (goodRems_seq (goodRems_upTo goodRems_h16Colon _) goodRems_h16)

theorem goodRems_ipv6 : GoodRems remsIpV6 := by
  unfold remsIpV6
  apply goodRems_alt (goodRems_seq (goodRems_rep goodRems_h16Colon _) goodRems_ls32)
  apply goodRems_alt (goodRems_seq goodRems_colonColon
    (goodRems_seq (goodRems_rep goodRems_h16Colon _) goodRems_ls32))
  apply goodRems_alt (goodRems_seq (goodRems_alt goodRems_pure goodRems_h16)
    (goodRems_seq goodRems_colonColon
      (goodRems_seq (goodRems_rep goodRems_h16Colon _) goodRems_ls32)))
  apply goodRems_alt (goodRems_seq (goodRems_optH16Seq _)
    (goodRems_seq goodRems_colonColon
      (goodRems_seq (goodRems_rep goodRems_h16Colon _) goodRems_ls32)))
  apply goodRems_alt (goodRems_seq (goodRems_optH16Seq _)
    (goodRems_seq goodRems_colonColon
      (goodRems_seq (goodRems_rep goodRems_h16Colon _) goodRems_ls32)))
  apply goodRems_alt (goodRems_seq (goodRems_optH16Seq _)
    (goodRems_seq goodRems_colonColon
      (goodRems_seq (goodRems_rep goodRems_h16Colon _) goodRems_ls32)))
  apply goodRems_alt (goodRems_seq (goodRems_optH16Seq _)
    (goodRems_seq goodRems_colonColon goodRems_ls32))
  apply goodRems_alt (goodRems_seq (goodRems_optH16Seq _)
    (goodRems_seq goodRems_colonColon goodRems_h16))
  exact goodRems_seq (goodRems_optH16Seq _) goodRems_colonColon

theorem goodRems_ipvFuture : GoodRems remsIpVFuture := by
  unfold remsIpVFuture
  repeat'
    first
    | apply goodRems_seq
    | exact goodRems_lit (by decide)
    | exact goodRems_plusClass (by decide)

theorem isIpLiteralBody_no_hash (body : Chars) (h : isIpLiteralBody body = true) :
    '#' ∉ body := by
  unfold isIpLiteralBody at h
  have hmem : ([] : Chars) ∈ remsAlt remsIpV6 remsIpVFuture body :=
    List.mem_of_elem_eq_true (by simpa [List.contains] using h)
  obtain ⟨u, hu, he⟩ := (goodRems_alt goodRems_ipv6 goodRems_ipvFuture) body [] hmem
  rw [he]
  simpa using hu

/-! ### Shape facts about the parser -/

theorem parseQF_false_no_fragment (A : Alphabet) (r : Chars)
    (qf : Option Chars × Option Chars) (h : parseQF A false r = some qf) :
    qf.2 = none := by
  unfold parseQF at h
  split at h
  all_goals (repeat' split at h)
  all_goals (try simp_all)
  all_goals (cases h; rfl)

theorem parseAuthority_host_isSome (A : Alphabet) (t : Chars) (h : HierParts)
    (hh : parseAuthority A t = some h) :
    h.host.isSome = true ∧ h.authority.isSome = true := by
  unfold parseAuthority at hh
  split at hh
  all_goals (repeat' split at hh)
  all_goals (try simp_all)
  all_goals (cases hh; simp)

theorem parseHier_authority_host (A : Alphabet) (s : Chars) (h : HierParts)
    (hh : parseHier A s = some h) :
    h.authority.isSome = true → h.host.isSome = true := by
  unfold parseHier at hh
  split at hh
  · intro _
    exact (parseAuthority_host_isSome A _ h hh).1
  · split at hh
    · cases hh; simp
    · simp at hh

theorem parseCore_absolute_shape (A : Alphabet) (s : Chars) (c : Components)
    (h : parseCore A true false s = some c) :
    c.scheme.isSome = true ∧ c.fragment = none ∧
      (c.authority.isSome = true → c.host.isSome = true) := by
  unfold parseCore at h
  split at h
  case h_2 => simp at h
  case h_1 sch rest heq =>
    split at h
    case h_2 => simp at h
    case h_1 c' hc' =>
      cases h
      unfold parseHierQF at hc'
      split at hc'
      · simp at hc'
      case h_2 hp hhier =>
        split at hc'
        · simp at hc'
        case h_2 qf hqf =>
          cases hc'
          refine ⟨rfl, ?_, ?_⟩
          · have := parseQF_false_no_fragment A _ _ hqf
            simp [mkComponents, this]
          · intro hauth
            have := parseHier_authority_host A _ _ hhier
            simp [mkComponents] at hauth ⊢
            exact this hauth

/-- C1: `normalizeUri` is NOT idempotent.  `normalizePath` removes dot
segments before decoding percent-encodings, so `%2E` only becomes a literal
`.` after dot-segment removal already ran; renormalizing the output then
removes the new dot segment.  At `"http://a/%2E"` the first application
yields `"http://a/."` and the second `"http://a/"`. -/
theorem normalizeUri_pct_dot_not_idempotent :
    normalizeUri "http://a/%2E" = Except.ok "http://a/." ∧
    normalizeUri "http://a/." = Except.ok "http://a/" ∧
    ("http://a/" : String) ≠ "http://a/." :=
  ⟨rfl, rfl, by decide⟩

/-- C2: the RFC 3986 resolution examples against base `http://a/b/c/d;p?q`,
including the excess-`..` case that must not ascend past the root. -/
theorem resolveUri_rfc_examples :
    resolveUri "g" "http://a/b/c/d;p?q" = Except.ok "http://a/b/c/g" ∧
    resolveUri "./g" "http://a/b/c/d;p?q" = Except.ok "http://a/b/c/g" ∧
    resolveUri "../g" "http://a/b/c/d;p?q" = Except.ok "http://a/b/g" ∧
    resolveUri "../../../g" "http://a/b/c/d;p?q" = Except.ok "http://a/g" ∧
    resolveUri "?y" "http://a/b/c/d;p?q" = Except.ok "http://a/b/c/d;p?y" ∧
    resolveUri "#s" "http://a/b/c/d;p?q" = Except.ok "http://a/b/c/d;p?q#s" :=
  ⟨rfl, rfl, rfl, rfl, rfl, rfl⟩

/-- C3 counterexample: a reference that carries its own scheme resolves
successfully even though the base fails the Absolute production — the base
is never parsed in that branch (source line 85 guards the `parseAbsolute`
call on the reference having no scheme). -/
theorem resolveUri_scheme_reference_ignores_base :
    resolveUri "g:h" "" = Except.ok "g:h" ∧
    parseAbsoluteUri "" = Except.error "Invalid absolute-URI: " :=
  ⟨rfl, rfl⟩

/-- C4 counterexample: `parseAbsoluteUri` succeeds on `"mailto:foo"`, which
has no authority — the `absoluteUri` pattern's hier-part admits the
`pathWithoutAuthority` branch, so authority is not required. -/
theorem parseAbsoluteUri_accepts_no_authority :
    parseAbsoluteUri "mailto:foo" =
      Except.ok ⟨some "mailto", none, none, none, none, "foo", none, none⟩ :=
  rfl

/-- C5 counterexample: `removeDotSegments "./g"` yields `"/g"`, not `"g"`:
the `isNoOpSegment` branch runs `removeSegment`, which keeps the slash that
terminated the dropped segment. -/
theorem removeDotSegments_keeps_slash_on_noop :
    removeDotSegments "./g" ≠ "g" ∧ removeDotSegments "./g" = "/g" :=
  ⟨by decide, by decide⟩

/-- C6: the two standard dot-segment removal examples. -/
theorem removeDotSegments_rfc_examples :
    removeDotSegments "/a/b/../c" = "/a/c" ∧
    removeDotSegments "/a/b/c/.." = "/a/b/" :=
  ⟨by decide, by decide⟩

/-- C7 counterexample: the decode-or-uppercase decision uses the component's
allowed-unescaped set, not the unreserved set: `!` is a sub-delim, not
unreserved, yet `%21` is decoded to the literal `!` instead of being kept
as an uppercased triplet. -/
theorem normalizeUri_decodes_non_unreserved :
    normalizeUri "http://a/%21" = Except.ok "http://a/!" ∧
    isUnreservedChar '!' = false ∧
    isAllowedUnescapedInPath uriAlphabet '!' = true :=
  ⟨rfl, by decide, by decide⟩

/-- C9: the relativization round-trip on the spec's example:
`toRelativeUri "http://a/b/c/d" "http://a/b/x"` resolved back against
`"http://a/b/c/d"` reproduces `"http://a/b/x"`. -/
theorem toRelativeUri_roundtrip_example :
    (toRelativeUri "http://a/b/c/d" "http://a/b/x").bind
        (fun rel => resolveUri rel "http://a/b/c/d") =
      Except.ok "http://a/b/x" :=
  rfl

/-- C10: the empty string is a URI-reference: `isUriReference` accepts it and
`parseUriReference` returns the all-absent components with an empty path. -/
theorem empty_string_uriReference :
    isUriReference "" = true ∧
    parseUriReference "" =
      Except.ok ⟨none, none, none, none, none, "", none, none⟩ :=
  ⟨by decide, rfl⟩

/-- C5 amended: one iteration of the `removeDotSegments` loop on a path
starting with `./` or `../` takes the `isNoOpSegment` branch and replaces
the prefix up to and including its terminating `/` by a single `/` (it does
not drop the prefix outright); in particular `removeDotSegments "./g"` is
`"/g"`. -/
theorem noop_prefix_one_iteration :
    (∀ s : Chars, isNoOpSegment ('.' :: '/' :: s) = true ∧
        removeSegment ('.' :: '/' :: s) = '/' :: s) ∧
    (∀ s : Chars, isNoOpSegment ('.' :: '.' :: '/' :: s) = true ∧
        removeSegment ('.' :: '.' :: '/' :: s) = '/' :: s) ∧
    (∀ (s out : Chars) (fuel : Nat),
        removeDotSegmentsAux (fuel + 1) ('.' :: '/' :: s) out =
          removeDotSegmentsAux fuel ('/' :: s) out) ∧
    removeDotSegments "./g" = "/g" := by
  refine ⟨fun s => ⟨rfl, ?_⟩, fun s => ⟨rfl, ?_⟩, fun s out fuel => ?_, by decide⟩
  · simp [removeSegment, List.findIdx?_cons]
  · simp [removeSegment, List.findIdx?_cons]
  · show removeDotSegmentsAux fuel (removeSegment ('.' :: '/' :: s)) out =
      removeDotSegmentsAux fuel ('/' :: s) out
    simp [removeSegment, List.findIdx?_cons]

/-- C3 amended: `resolveUri` parses the base under the Absolute production
only when the reference carries no scheme; in that branch, a base that fails
the Absolute production makes `resolveUri` fail with the base's
`InvalidIdentifier` error.  (A reference with its own scheme skips the base
entirely — see `resolveUri_scheme_reference_ignores_base`.) -/
theorem resolveUri_invalid_base_errors (reference base : String)
    (c : Components) (e : String)
    (href : parseUriReference reference = Except.ok c)
    (hscheme : c.scheme = none)
    (hbase : parseAbsoluteUri base = Except.error e) :
    resolveUri reference base = Except.error e := by
  simp only [resolveUri, resolveReference, uriStrategy, href, hscheme, hbase,
    bind, Except.bind]

/-- Witness for `resolveUri_invalid_base_errors` at reference `"g"` and the
empty base. -/
theorem resolveUri_invalid_base_errors_witness :
    resolveUri "g" "" = Except.error "Invalid absolute-URI: " :=
  resolveUri_invalid_base_errors "g" ""
    ⟨none, none, none, none, none, "g", none, none⟩ "Invalid absolute-URI: "
    rfl rfl rfl

/-- C4 amended: a successful `parseAbsoluteUri` or `parseAbsoluteIri` always
returns components with a scheme and without a fragment, and whenever an
authority was captured a host was captured within it; the authority itself
is optional (the hier-part admits a no-authority path). -/
theorem parseAbsolute_shape (s : String) (c : Components)
    (h : parseAbsoluteUri s = Except.ok c ∨ parseAbsoluteIri s = Except.ok c) :
    c.scheme.isSome = true ∧ c.fragment = none ∧
      (c.authority.isSome = true → c.host.isSome = true) := by
  rcases h with h | h
  all_goals
    simp only [parseAbsoluteUri, parseAbsoluteIri, runParser] at h
    split at h
    case h_1 c0 hc =>
      cases h
      exact parseCore_absolute_shape _ _ _ hc
    case h_2 => exact Except.noConfusion h

/-- Witness for `parseAbsolute_shape` at `"http://h/p"`. -/
theorem parseAbsolute_shape_witness :
    ((⟨some "http", some "h", none, some "h", none, "/p", none, none⟩ :
        Components).scheme.isSome = true) ∧
    ((⟨some "http", some "h", none, some "h", none, "/p", none, none⟩ :
        Components).fragment = none) ∧
    (((⟨some "http", some "h", none, some "h", none, "/p", none, none⟩ :
        Components).authority.isSome = true) →
      ((⟨some "http", some "h", none, some "h", none, "/p", none, none⟩ :
        Components).host.isSome = true)) :=
  parseAbsolute_shape "http://h/p" _ (Or.inl rfl)

/-- C7 amended: each percent-encoded triplet is rewritten locally and
independently: if the decoded character is in the component's
allowed-unescaped set (for paths `unreserved|subDelims|[:@]`, for
query/fragment additionally `/` and `?`) the triplet becomes that literal
character, otherwise the triplet is kept with its hex digits uppercased.
The unreserved examples behave as the spec's examples state. -/
theorem replacePct_triplet_rule :
    (∀ (isAllowed : Char → Bool) (p : Chars) (c1 c2 : Char) (rest : Chars),
        '%' ∉ p → isHexDigitChar c1 = true → isHexDigitChar c2 = true →
        replacePct isAllowed (p ++ '%' :: c1 :: c2 :: rest) =
          p ++ (if isAllowed (pctChar c1 c2) = true then [pctChar c1 c2]
                else ['%', upperChar c1, upperChar c2]) ++
            replacePct isAllowed rest) ∧
    normalizeUri "http://a/%7Euser" = Except.ok "http://a/~user" ∧
    normalizeUri "http://a/%2f" = Except.ok "http://a/%2F" := by
  refine ⟨?_, rfl, rfl⟩
  intro isAllowed p c1 c2 rest hp h1 h2
  induction p with
  | nil =>
    simp only [List.nil_append]
    simp [replacePct, h1, h2]
  | cons a p ih =>
    have ha : ¬ a = '%' := fun he => hp (he ▸ List.mem_cons_self a p)
    have hp2 : '%' ∉ p := fun hm => hp (List.mem_cons_of_mem a hm)
    have hstep : replacePct isAllowed (a :: (p ++ '%' :: c1 :: c2 :: rest)) =
        a :: replacePct isAllowed (p ++ '%' :: c1 :: c2 :: rest) := by
      cases p with
      | nil => simp [replacePct, ha, h1, h2]
      | cons b q =>
        cases q with
        | nil => simp [replacePct, ha]
        | cons d r => simp [replacePct, ha]
    simp only [List.cons_append, hstep, ih hp2]

/-- Witness for `replacePct_triplet_rule` at the path triplets `%7E`
(decoded to `~`) and `%2f` (kept and uppercased). -/
theorem replacePct_triplet_rule_witness :
    replacePct (isAllowedUnescapedInPath uriAlphabet) ['/', '%', '7', 'E'] =
      ['/', '~'] ∧
    replacePct (isAllowedUnescapedInPath uriAlphabet) ['/', '%', '2', 'f'] =
      ['/', '%', '2', 'F'] := by
  constructor
  · exact (replacePct_triplet_rule.1 (isAllowedUnescapedInPath uriAlphabet)
      ['/'] '7' 'E' [] (by decide) (by decide) (by decide)).trans (by decide)
  · exact (replacePct_triplet_rule.1 (isAllowedUnescapedInPath uriAlphabet)
      ['/'] '2' 'f' [] (by decide) (by decide) (by decide)).trans (by decide)

/-! ### No component before the fragment contains a hash -/

theorem takeWhilePct_no_hash {ok : Char → Bool} (hok : ok '#' = false)
    (s : Chars) : '#' ∉ (takeWhilePct ok s).1 := by
  intro hm
  rcases takeWhilePct_run_mem ok s _ hm with h | h | h
  · rw [hok] at h; exact Bool.noConfusion h
  · exact absurd h (by decide)
  · exact absurd h (by decide)

theorem validSeq_no_hash {ok : Char → Bool} (hok : ok '#' = false)
    {l : Chars} (h : validSeq ok l = true) : '#' ∉ l := by
  intro hm
  rcases validSeq_mem ok l h _ hm with h1 | h1 | h1
  · rw [hok] at h1; exact Bool.noConfusion h1
  · exact absurd h1 (by decide)
  · exact absurd h1 (by decide)

theorem schemeSplit_no_hash (s sch rest : Chars)
    (h : schemeSplit s = some (sch, rest)) : '#' ∉ sch := by
  unfold schemeSplit at h
  split at h
  case h_1 =>
    split at h
    case isTrue =>
      split at h
      case h_1 =>
        cases h
        intro hm
        exact absurd (List.mem_takeWhile_imp hm) (by decide)
      case h_2 => exact Option.noConfusion h
    case isFalse => exact Option.noConfusion h
  case h_2 => exact Option.noConfusion h

theorem parseUserinfo_no_hash (t : Chars) (ui : Option Chars) (t1 : Chars)
    (h : parseUserinfo uriAlphabet t = (ui, t1)) :
    ∀ u, ui = some u → '#' ∉ u := by
  unfold parseUserinfo at h
  split at h
  case _ uiRun afterUi heq =>
    have hrun : uiRun = (takeWhilePct (userinfoOk uriAlphabet) t).1 := by rw [heq]
    split at h
    case h_1 rest =>
      cases h
      intro u hu
      cases hu
      rw [hrun]
      exact takeWhilePct_no_hash (by decide) t
    case h_2 =>
      cases h
      intro u hu
      exact Option.noConfusion hu

theorem parseHost_no_hash (t1 host t2 : Chars)
    (h : parseHost uriAlphabet t1 = some (host, t2)) : '#' ∉ host := by
  unfold parseHost at h
  split at h
  case h_1 rest =>
    split at h
    case h_1 t2' =>
      split at h
      case isTrue hbody =>
        cases h
        intro hm
        rcases List.mem_cons.mp hm with he | hm
        · exact absurd he (by decide)
        rcases List.mem_append.mp hm with hm | hm
        · exact isIpLiteralBody_no_hash _ hbody hm
        · rcases List.mem_singleton.mp hm with he
          exact absurd he (by decide)
      case isFalse => exact Option.noConfusion h
    case h_2 => exact Option.noConfusion h
  case h_2 =>
    have h2 := Option.some_inj.mp h
    have hh : host = (takeWhilePct (regNameOk uriAlphabet) t1).1 := by
      rw [h2]
    rw [hh]
    exact takeWhilePct_no_hash (by decide) t1

theorem parsePort_no_hash (t2 : Chars) (port : Option Chars) (t3 : Chars)
    (h : parsePort t2 = (port, t3)) : ∀ p, port = some p → '#' ∉ p := by
  unfold parsePort at h
  split at h
  case h_1 rest =>
    cases h
    intro p hp
    cases hp
    intro hm
    exact absurd (List.mem_takeWhile_imp hm) (by decide)
  case h_2 =>
    cases h
    intro p hp
    exact Option.noConfusion hp


theorem asString_data (l : Chars) : (List.asString l).data = l := rfl

theorem parsePathAbempty_no_hash (A : Alphabet) (t3 pspan t4 : Chars)
    (h : parsePathAbempty A t3 = some (pspan, t4)) : '#' ∉ pspan := by
  unfold parsePathAbempty at h
  split at h
  case h_1 heq =>
    cases h
    simp
  case h_2 ps heq =>
    split at h
    case isTrue =>
      cases h
      intro hm
      rw [← heq] at hm
      have := List.mem_takeWhile_imp hm
      simp at this
    case isFalse => exact Option.noConfusion h
  case h_3 => exact Option.noConfusion h

theorem authorityChars_no_hash (userinfo : Option Chars) (host : Chars)
    (port : Option Chars)
    (hui : ∀ u, userinfo = some u → '#' ∉ u) (hh : '#' ∉ host)
    (hp : ∀ p, port = some p → '#' ∉ p) :
    '#' ∉ authorityChars userinfo host port := by
  unfold authorityChars
  intro hm
  rcases List.mem_append.mp hm with hm | hm
  · rcases List.mem_append.mp hm with hm | hm
    · rcases huv : userinfo with _ | u
      · rw [huv] at hm; simp at hm
      · rw [huv] at hm
        rcases List.mem_append.mp hm with hm | hm
        · exact hui u huv hm
        · rcases List.mem_singleton.mp hm with he
          exact absurd he (by decide)
    · exact hh hm
  · rcases hpv : port with _ | p
    · rw [hpv] at hm; simp at hm
    · rw [hpv] at hm
      rcases List.mem_cons.mp hm with he | hm
      · exact absurd he (by decide)
      · exact hp p hpv hm

theorem parseAuthority_no_hash (t : Chars) (h : HierParts)
    (hh : parseAuthority uriAlphabet t = some h) :
    (∀ a, h.authority = some a → '#' ∉ a) ∧ '#' ∉ h.path := by
  unfold parseAuthority at hh
  split at hh
  case _ userinfo t1 hui =>
    split at hh
    case h_1 => exact Option.noConfusion hh
    case h_2 host t2 hhost =>
      split at hh
      case _ port t3 hport =>
        split at hh
        case h_1 => exact Option.noConfusion hh
        case h_2 pspan t4 hpath =>
          cases hh
          constructor
          · intro a ha
            cases ha
            exact authorityChars_no_hash _ _ _
              (parseUserinfo_no_hash t _ _ hui)
              (parseHost_no_hash t1 _ _ hhost)
              (parsePort_no_hash t2 _ _ hport)
          · exact parsePathAbempty_no_hash uriAlphabet t3 _ _ hpath

theorem parseHier_no_hash (s : Chars) (h : HierParts)
    (hh : parseHier uriAlphabet s = some h) :
    (∀ a, h.authority = some a → '#' ∉ a) ∧ '#' ∉ h.path := by
  unfold parseHier at hh
  split at hh
  · exact parseAuthority_no_hash _ h hh
  · split at hh
    case isTrue =>
      cases hh
      constructor
      · intro a ha
        exact Option.noConfusion ha
      · intro hm
        have := List.mem_takeWhile_imp hm
        simp at this
    case isFalse => exact Option.noConfusion hh

theorem parseQF_no_hash (af : Bool) (rest : Chars)
    (qf : Option Chars × Option Chars)
    (h : parseQF uriAlphabet af rest = some qf) :
    ∀ q, qf.1 = some q → '#' ∉ q := by
  unfold parseQF at h
  split at h
  · cases h
    intro q hq
    exact Option.noConfusion hq
  · split at h
    case isTrue =>
      split at h
      case isTrue hq =>
        split at h
        · cases h
          intro q hq2
          cases hq2
          intro hm
          have := List.mem_takeWhile_imp hm
          simp at this
        · split at h
          case isTrue =>
            cases h
            intro q hq2
            cases hq2
            intro hm
            have := List.mem_takeWhile_imp hm
            simp at this
          case isFalse => exact Option.noConfusion h
        · exact Option.noConfusion h
      case isFalse => exact Option.noConfusion h
    case isFalse =>
      split at h
      case isTrue hq =>
        cases h
        intro q hq2
        cases hq2
        exact validSeq_no_hash (by decide) hq
      case isFalse => exact Option.noConfusion h
  · split at h
    case isTrue =>
      cases h
      intro q hq
      exact Option.noConfusion hq
    case isFalse => exact Option.noConfusion h
  · exact Option.noConfusion h

theorem parseHierQF_no_hash (af : Bool) (schemeOpt : Option Chars) (t : Chars)
    (c : Components)
    (hsch : ∀ l, schemeOpt = some l → '#' ∉ l)
    (h : parseHierQF uriAlphabet af schemeOpt t = some c) : NoHashC c := by
  unfold parseHierQF at h
  split at h
  · exact Option.noConfusion h
  case h_2 hp hhier =>
    split at h
    · exact Option.noConfusion h
    case h_2 qf hqf =>
      cases h
      obtain ⟨hauth, hpath⟩ := parseHier_no_hash _ _ hhier
      have hq := parseQF_no_hash _ _ _ hqf
      unfold NoHashC mkComponents
      refine ⟨?_, ?_, ?_, ?_⟩
      · intro s hs
        obtain ⟨l, hl, rfl⟩ := Option.map_eq_some'.mp hs
        rw [asString_data]
        exact hsch l hl
      · intro a ha
        obtain ⟨l, hl, rfl⟩ := Option.map_eq_some'.mp ha
        rw [asString_data]
        exact hauth l hl
      · rw [asString_data]
        exact hpath
      · intro q hqe
        obtain ⟨l, hl, rfl⟩ := Option.map_eq_some'.mp hqe
        rw [asString_data]
        exact hq l hl

theorem parseCore_no_hash (rs af : Bool) (s : Chars) (c : Components)
    (h : parseCore uriAlphabet rs af s = some c) : NoHashC c := by
  unfold parseCore at h
  split at h
  case h_1 sch rest hsch =>
    split at h
    case h_1 c0 hc =>
      cases h
      exact parseHierQF_no_hash _ _ _ _
        (fun l hl => by cases hl; exact schemeSplit_no_hash s _ _ hsch) hc
    case h_2 =>
      split at h
      · exact Option.noConfusion h
      · exact parseHierQF_no_hash _ _ _ _ (fun l hl => Option.noConfusion hl) h
  case h_2 =>
    split at h
    · exact Option.noConfusion h
    · exact parseHierQF_no_hash _ _ _ _ (fun l hl => Option.noConfusion hl) h

theorem parseUriReference_core (s : String) (c : Components)
    (h : parseUriReference s = Except.ok c) :
    parseCore uriAlphabet false true s.data = some c := by
  simp only [parseUriReference, runParser] at h
  split at h
  case h_1 c0 hc =>
    cases h
    exact hc
  case h_2 => exact Except.noConfusion h

theorem parseAbsoluteUri_core (s : String) (c : Components)
    (h : parseAbsoluteUri s = Except.ok c) :
    parseCore uriAlphabet true false s.data = some c := by
  simp only [parseAbsoluteUri, runParser] at h
  split at h
  case h_1 c0 hc =>
    cases h
    exact hc
  case h_2 => exact Except.noConfusion h

theorem removeSegment_sub (p : Chars) :
    ∀ c ∈ removeSegment p, c ∈ p ∨ c = '/' := by
  unfold removeSegment
  split
  · intro c hc; simp at hc
  case h_2 a rest =>
    split
    · intro c hc; simp at hc
    case h_2 i hi =>
      intro c hc
      rcases List.mem_cons.mp hc with rfl | hc
      · exact Or.inr rfl
      · exact Or.inl (List.mem_cons_of_mem a (List.drop_subset _ _ hc))

theorem replaceSegmentWithSlash_sub (p : Chars) :
    ∀ c ∈ replaceSegmentWithSlash p, c ∈ p ∨ c = '/' := by
  unfold replaceSegmentWithSlash
  split
  · intro c hc
    rcases List.mem_singleton.mp hc with rfl
    exact Or.inr rfl
  case h_2 a rest =>
    split
    · intro c hc
      rcases List.mem_singleton.mp hc with rfl
      exact Or.inr rfl
    case h_2 i hi =>
      intro c hc
      rcases List.mem_cons.mp hc with rfl | hc
      · exact Or.inr rfl
      · exact Or.inl (List.mem_cons_of_mem a (List.drop_subset _ _ hc))

theorem getSegment_sub (p : Chars) : ∀ c ∈ getSegment p, c ∈ p := by
  unfold getSegment
  split
  · intro c hc; simp at hc
  case h_2 a rest =>
    split
    · intro c hc; exact hc
    · intro c hc; exact List.take_subset _ _ hc

theorem removeLastSegment_sub (out : Chars) :
    ∀ c ∈ removeLastSegment out, c ∈ out := by
  unfold removeLastSegment
  split
  · intro c hc; exact hc
  · intro c hc; exact List.take_subset _ _ hc

theorem removeDotSegmentsAux_sub (fuel : Nat) :
    ∀ (p out : Chars) (c : Char), c ∈ removeDotSegmentsAux fuel p out →
      c ∈ p ∨ c ∈ out ∨ c = '/' := by
  induction fuel with
  | zero =>
    intro p out c hc
    exact Or.inr (Or.inl hc)
  | succ fuel ih =>
    intro p out c hc
    unfold removeDotSegmentsAux at hc
    split at hc
    · exact Or.inr (Or.inl hc)
    split at hc
    · rcases ih _ _ _ hc with h | h | h
      · rcases removeSegment_sub p c h with h | h
        · exact Or.inl h
        · exact Or.inr (Or.inr h)
      · exact Or.inr (Or.inl h)
      · exact Or.inr (Or.inr h)
    split at hc
    · rcases ih _ _ _ hc with h | h | h
      · rcases replaceSegmentWithSlash_sub p c h with h | h
        · exact Or.inl h
        · exact Or.inr (Or.inr h)
      · exact Or.inr (Or.inl h)
      · exact Or.inr (Or.inr h)
    split at hc
    · rcases ih _ _ _ hc with h | h | h
      · rcases replaceSegmentWithSlash_sub p c h with h | h
        · exact Or.inl h
        · exact Or.inr (Or.inr h)
      · exact Or.inr (Or.inl (removeLastSegment_sub out c h))
      · exact Or.inr (Or.inr h)
    · rcases ih _ _ _ hc with h | h | h
      · rcases removeSegment_sub p c h with h | h
        · exact Or.inl h
        · exact Or.inr (Or.inr h)
      · rcases List.mem_append.mp h with h | h
        · exact Or.inr (Or.inl h)
        · exact Or.inl (getSegment_sub p c h)
      · exact Or.inr (Or.inr h)

theorem removeDotSegmentsChars_no_hash {p : Chars} (h : '#' ∉ p) :
    '#' ∉ removeDotSegmentsChars p := by
  intro hm
  rcases removeDotSegmentsAux_sub p.length p [] '#' hm with h1 | h1 | h1
  · exact h h1
  · simp at h1
  · exact absurd h1 (by decide)

theorem replacePct_no_hash {ok : Char → Bool} (hok : ok '#' = false)
    (l : Chars) (h : '#' ∉ l) : '#' ∉ replacePct ok l := by
  induction l using replacePct.induct ok with
  | case1 c1 c2 rest hhex ih =>
    have h1 : isHexDigitChar c1 = true := (Bool.and_eq_true _ _ |>.mp hhex).1
    have h2 : isHexDigitChar c2 = true := (Bool.and_eq_true _ _ |>.mp hhex).2
    have hrest : '#' ∉ rest := fun hm =>
      h (List.mem_cons_of_mem _ (List.mem_cons_of_mem _ (List.mem_cons_of_mem _ hm)))
    simp only [replacePct, hhex, if_true]
    intro hm
    rcases List.mem_append.mp hm with hm | hm
    · split at hm
      case isTrue hall =>
        have he := List.mem_singleton.mp hm
        rw [← he, hok] at hall
        exact Bool.noConfusion hall
      case isFalse =>
        rcases List.mem_cons.mp hm with he | hm
        · exact absurd he (by decide)
        rcases List.mem_cons.mp hm with he | hm
        · have := upperChar_hash he.symm
          rw [this] at h1
          exact absurd h1 (by decide)
        rcases List.mem_singleton.mp hm with he
        have := upperChar_hash he.symm
        rw [this] at h2
        exact absurd h2 (by decide)
    · exact ih hrest hm
  | case2 c1 c2 rest hhex ih =>
    have htail : '#' ∉ c1 :: c2 :: rest := fun hm => h (List.mem_cons_of_mem _ hm)
    simp only [replacePct, hhex, Bool.false_eq_true, if_false]
    intro hm
    rcases List.mem_cons.mp hm with he | hm
    · exact absurd he (by decide)
    · exact ih htail hm
  | case3 c rest hne ih =>
    have hc : ¬ c = '#' := fun he => h (he ▸ List.mem_cons_self c rest)
    have htail : '#' ∉ rest := fun hm => h (List.mem_cons_of_mem _ hm)
    have hstep : replacePct ok (c :: rest) = c :: replacePct ok rest := by
      cases rest with
      | nil => simp [replacePct]
      | cons b q =>
        cases q with
        | nil => simp [replacePct]
        | cons d r =>
          have hcp : ¬ c = '%' := fun hcp => hne b d r hcp rfl
          simp [replacePct, hcp]
    rw [hstep]
    intro hm
    rcases List.mem_cons.mp hm with he | hm
    · exact hc he.symm
    · exact ih htail hm
  | case4 => simp [replacePct]

theorem normalizePathChars_no_hash {p : Chars} (h : '#' ∉ p) :
    '#' ∉ normalizePathChars uriAlphabet p := by
  unfold normalizePathChars
  exact replacePct_no_hash (by decide) _ (removeDotSegmentsChars_no_hash h)

theorem normalizeQueryChars_no_hash {q : Chars} (h : '#' ∉ q) :
    '#' ∉ normalizeQueryChars uriAlphabet q := by
  unfold normalizeQueryChars
  exact replacePct_no_hash (by decide) _ h

theorem composeIdentifier_hash (c : Components) (hnh : NoHashC c) :
    (c.fragment = none → '#' ∉ (composeIdentifier uriStrategy c).data) ∧
    (∀ f, c.fragment = some f → ∃ p, '#' ∉ p ∧
      (composeIdentifier uriStrategy c).data =
        p ++ '#' :: normalizeQueryChars uriAlphabet f.data) := by
  obtain ⟨hs, ha, hp, hq⟩ := hnh
  have hPre : '#' ∉ ((c.scheme.getD "").data.map lowerChar ++ [':'] ++
      (match c.authority with
       | none => []
       | some a => '/' :: '/' :: a.data.map lowerChar) ++
      normalizePathChars uriAlphabet c.path.data ++
      (match c.query with
       | none => []
       | some q => '?' :: normalizeQueryChars uriAlphabet q.data)) := by
    intro hm
    rcases List.mem_append.mp hm with hm | hm
    rotate_left
    · rcases hcq : c.query with _ | q
      · rw [hcq] at hm; simp at hm
      · rw [hcq] at hm
        rcases List.mem_cons.mp hm with he | hm
        · exact absurd he (by decide)
        · exact normalizeQueryChars_no_hash (hq q hcq) hm
    rcases List.mem_append.mp hm with hm | hm
    rotate_left
    · exact normalizePathChars_no_hash hp hm
    rcases List.mem_append.mp hm with hm | hm
    rotate_left
    · rcases hca : c.authority with _ | a
      · rw [hca] at hm; simp at hm
      · rw [hca] at hm
        rcases List.mem_cons.mp hm with he | hm
        · exact absurd he (by decide)
        rcases List.mem_cons.mp hm with he | hm
        · exact absurd he (by decide)
        · exact map_lowerChar_no_hash (ha a hca) hm
    rcases List.mem_append.mp hm with hm | hm
    · have hsd : '#' ∉ (c.scheme.getD "").data := by
        rcases hcs : c.scheme with _ | s
        · intro hx; simp at hx
        · exact hs s hcs
      exact map_lowerChar_no_hash hsd hm
    · rcases List.mem_singleton.mp hm with he
      exact absurd he (by decide)
  constructor
  · intro hf
    unfold composeIdentifier
    simp only [uriStrategy, hf]
    rw [asString_data]
    intro hm
    rcases List.mem_append.mp hm with hm | hm
    · exact hPre hm
    · simp at hm
  · intro f hf
    unfold composeIdentifier
    simp only [uriStrategy, hf]
    rw [asString_data]
    exact ⟨_, hPre, rfl⟩

theorem mergePaths_no_hash (p : String) (b : Components)
    (hp : '#' ∉ p.data) (hb : '#' ∉ b.path.data) :
    '#' ∉ (mergePaths p b).data := by
  unfold mergePaths
  split
  · intro hm
    rw [show (("/" ++ p : String)).data = '/' :: p.data from rfl] at hm
    rcases List.mem_cons.mp hm with he | hm
    · exact absurd he (by decide)
    · exact hp hm
  · split
    · exact hp
    case h_2 i hi =>
      intro hm
      rw [show (((b.path.data.take (i + 1)).asString ++ p : String)).data =
          b.path.data.take (i + 1) ++ p.data from rfl] at hm
      rcases List.mem_append.mp hm with hm | hm
      · exact hb (List.take_subset _ _ hm)
      · exact hp hm

theorem uriStrategy_parseReference :
    uriStrategy.parseReference = parseUriReference := rfl

theorem uriStrategy_parseAbsolute :
    uriStrategy.parseAbsolute = parseAbsoluteUri := rfl

theorem fragment_shape_of_ok {r : String} {c X : Components}
    (hx : (Except.ok (composeIdentifier uriStrategy X) : Except String String) =
      Except.ok r)
    (hfr : X.fragment = c.fragment) (hX : NoHashC X) :
    (c.fragment = none → '#' ∉ r.data) ∧
    (∀ f, c.fragment = some f → ∃ p, '#' ∉ p ∧
        r.data = p ++ '#' :: normalizeQueryChars uriAlphabet f.data) := by
  have hr := Except.ok.inj hx
  subst hr
  constructor
  · intro hf
    exact (composeIdentifier_hash X hX).1 (hfr.trans hf)
  · intro f hf
    exact (composeIdentifier_hash X hX).2 f (hfr.trans hf)

/-- C8: the fragment of a successful `resolveUri` result is determined solely
by the reference: when the parsed reference has no fragment the result
contains no `#` at all, and when it has fragment `f` the result is a
`#`-free prefix followed by `#` and the normalized `f` — regardless of the
base. -/
theorem resolveUri_fragment_from_reference (reference base r : String)
    (c : Components)
    (hres : resolveUri reference base = Except.ok r)
    (href : parseUriReference reference = Except.ok c) :
    (c.fragment = none → '#' ∉ r.data) ∧
    (∀ f, c.fragment = some f → ∃ p, '#' ∉ p ∧
        r.data = p ++ '#' :: normalizeQueryChars uriAlphabet f.data) := by
  have hnc : NoHashC c :=
    parseCore_no_hash _ _ _ _ (parseUriReference_core _ _ href)
  simp only [resolveUri, resolveReference, uriStrategy_parseReference,
    uriStrategy_parseAbsolute, bind, Except.bind, pure, Except.pure,
    href] at hres
  rcases hsch : c.scheme with _ | sch
  case some =>
    simp only [hsch] at hres
    exact fragment_shape_of_ok hres rfl hnc
  case none =>
    simp only [hsch] at hres
    rcases hb : parseAbsoluteUri base with e | b
    · simp only [hb] at hres
      exact Except.noConfusion hres
    · simp only [hb] at hres
      have hnb : NoHashC b :=
        parseCore_no_hash _ _ _ _ (parseAbsoluteUri_core _ _ hb)
      rcases hca : c.authority with _ | a
      case some =>
        simp only [hca] at hres
        refine fragment_shape_of_ok hres rfl ⟨hnb.1, ?_, hnc.2.2.1, hnc.2.2.2⟩
        intro a2 ha2
        cases ha2
        exact hnc.2.1 a hca
      case none =>
        simp only [hca] at hres
        rcases hcq : c.query with _ | q0
        case some =>
          simp only [hcq] at hres
          split at hres
          · refine fragment_shape_of_ok hres rfl
              ⟨hnb.1, hnb.2.1, hnb.2.2.1, ?_⟩
            intro q hq2
            cases hq2
            exact hnc.2.2.2 q0 hcq
          · refine fragment_shape_of_ok hres rfl
              ⟨hnb.1, hnb.2.1, hnc.2.2.1, ?_⟩
            intro q hq2
            cases hq2
            exact hnc.2.2.2 q0 hcq
          · refine fragment_shape_of_ok hres rfl
              ⟨hnb.1, hnb.2.1,
               mergePaths_no_hash c.path b hnc.2.2.1 hnb.2.2.1, ?_⟩
            intro q hq2
            cases hq2
            exact hnc.2.2.2 q0 hcq
        case none =>
          simp only [hcq] at hres
          split at hres
          · exact fragment_shape_of_ok hres rfl
              ⟨hnb.1, hnb.2.1, hnb.2.2.1, hnb.2.2.2⟩
          · refine fragment_shape_of_ok hres rfl
              ⟨hnb.1, hnb.2.1, hnc.2.2.1, ?_⟩
            intro q hq2
            exact Option.noConfusion hq2
          · refine fragment_shape_of_ok hres rfl
              ⟨hnb.1, hnb.2.1,
               mergePaths_no_hash c.path b hnc.2.2.1 hnb.2.2.1, ?_⟩
            intro q hq2
            exact Option.noConfusion hq2

/-- Witness for `resolveUri_fragment_from_reference`: resolving `"g#s"`
against `"http://a/b/c"` yields `"http://a/b/g#s"`, whose fragment part is
exactly the reference's. -/
theorem resolveUri_fragment_from_reference_witness :
    ∃ p, '#' ∉ p ∧
      ("http://a/b/g#s" : String).data =
        p ++ '#' :: normalizeQueryChars uriAlphabet ("s" : String).data :=
  (resolveUri_fragment_from_reference "g#s" "http://a/b/c" "http://a/b/g#s"
      ⟨none, none, none, none, none, "g", none, some "s"⟩ rfl rfl).2 "s" rfl

end Uri
